import Mathlib

/-!
# Verification of the Connect Four MCTS engine (`src/mcts.py`)

Shallow embedding of the game-state model and decision engine:
board representation (6×7 grid of cells), move validity and application,
win detection, random rollout, MCTS backpropagation and final move
selection, the tactical win/block check, and the difficulty-scaled
decision policy.

Python's `list`-of-`list` board is embedded as `List (List Cell)`;
`copy.deepcopy` followed by in-place mutation of the copy corresponds to
pure functional update (`List.set`), which by construction never touches
the input value.  Python's implicit random source (`random.random`,
`random.choice`) is threaded through as explicit oracle parameters.
-/

namespace ConnectFour

/-- Cell states of the grid: `"."`, `"R"`, `"Y"` in the source. -/
inductive Cell where
  | empty
  | R
  | Y
deriving DecidableEq, Repr

/-- The two players, `"R"` and `"Y"` strings in the source. -/
inductive Player where
  | R
  | Y
deriving DecidableEq, Repr

/-- The cell occupied by a player's piece. -/
def Player.cell : Player → Cell
  | .R => .R
  | .Y => .Y

/-- `ROWS = 6` in `mcts.py`. -/
def ROWS : Nat := 6

/-- `COLS = 7` in `mcts.py`. -/
def COLS : Nat := 7

/-- The board: a list of `ROWS` rows, each a list of `COLS` cells;
`board[row][col]` in the source, row 0 at the top. -/
abbrev Board : Type := List (List Cell)

/-- Read `board[row][col]` (total, defaulting to `empty` out of range;
the source only reads in range). -/
def cellAt (b : Board) (row col : Nat) : Cell :=
  (b.getD row []).getD col Cell.empty

/-- Well-formed dimensions: 6 rows of 7 cells each, as produced by
`[["." for _ in range(COLS)] for _ in range(ROWS)]` and preserved by
every operation of the engine. -/
def WF (b : Board) : Prop :=
  b.length = ROWS ∧ ∀ row ∈ b, row.length = COLS

instance (b : Board) : Decidable (WF b) := by
  unfold WF
  infer_instance

/-- The initial board of `main.py` / `main_streamlit.py`:
`[["." for _ in range(COLS)] for _ in range(ROWS)]`. -/
def empty_board : Board :=
  List.replicate ROWS (List.replicate COLS Cell.empty)

/-- `get_valid_moves(board)`: all columns `col` in `range(COLS)` with
`board[0][col] == "."`, collected in ascending order. -/
def get_valid_moves (b : Board) : List Nat :=
  (List.range COLS).filter (fun col => cellAt b 0 col == Cell.empty)

/-- `make_move(board, col, player)`: deep-copy the board, then scan rows
`reversed(range(ROWS))` (bottom-up) for the first `"."` cell of the
column and place the player's piece there; if none is found the loop
falls through and the unchanged copy is returned. -/
def make_move (b : Board) (col : Nat) (player : Player) : Board :=
  match (List.range ROWS).reverse.find? (fun row => cellAt b row col == Cell.empty) with
  | some row => b.set row ((b.getD row []).set col player.cell)
  | none => b

/-- `check_winner(board, player)`: four scans — horizontal, vertical,
down-right diagonal, up-right diagonal — over the same index ranges as
the Python loops, each returning `True` on the first complete line. -/
def check_winner (b : Board) (p : Player) : Bool :=
  ((List.range ROWS).any fun row => (List.range (COLS - 3)).any fun col =>
    cellAt b row col == p.cell && cellAt b row (col+1) == p.cell &&
    cellAt b row (col+2) == p.cell && cellAt b row (col+3) == p.cell) ||
  ((List.range COLS).any fun col => (List.range (ROWS - 3)).any fun row =>
    cellAt b row col == p.cell && cellAt b (row+1) col == p.cell &&
    cellAt b (row+2) col == p.cell && cellAt b (row+3) col == p.cell) ||
  ((List.range (ROWS - 3)).any fun row => (List.range (COLS - 3)).any fun col =>
    cellAt b row col == p.cell && cellAt b (row+1) (col+1) == p.cell &&
    cellAt b (row+2) (col+2) == p.cell && cellAt b (row+3) (col+3) == p.cell) ||
  ((List.range' 3 (ROWS - 3)).any fun row => (List.range (COLS - 3)).any fun col =>
    cellAt b row col == p.cell && cellAt b (row-1) (col+1) == p.cell &&
    cellAt b (row-2) (col+2) == p.cell && cellAt b (row-3) (col+3) == p.cell)

/-- `get_next_player(current_player)`: `"R" if current_player == "Y" else "Y"`. -/
def get_next_player : Player → Player
  | .Y => .R
  | .R => .Y

/-- `is_board_full(board)`: no column has an empty top cell. -/
def is_board_full (b : Board) : Bool :=
  (List.range COLS).all fun col => !(cellAt b 0 col == Cell.empty)

/-- Specification-level win predicate, stated directly from the spec
sentence: the player occupies four contiguous cells somewhere on the
board in a horizontal row, a vertical column, or either diagonal
direction.  Anchored at the cell with least row and least column of the
line (for the up-right diagonal, at its bottom-left end). -/
def winSpec (b : Board) (p : Player) : Prop :=
  ∃ row col,
    (row < ROWS ∧ col + 3 < COLS ∧
      cellAt b row col = p.cell ∧ cellAt b row (col+1) = p.cell ∧
      cellAt b row (col+2) = p.cell ∧ cellAt b row (col+3) = p.cell) ∨
    (row + 3 < ROWS ∧ col < COLS ∧
      cellAt b row col = p.cell ∧ cellAt b (row+1) col = p.cell ∧
      cellAt b (row+2) col = p.cell ∧ cellAt b (row+3) col = p.cell) ∨
    (row + 3 < ROWS ∧ col + 3 < COLS ∧
      cellAt b row col = p.cell ∧ cellAt b (row+1) (col+1) = p.cell ∧
      cellAt b (row+2) (col+2) = p.cell ∧ cellAt b (row+3) (col+3) = p.cell) ∨
    (row + 3 < ROWS ∧ col + 3 < COLS ∧
      cellAt b (row+3) col = p.cell ∧ cellAt b (row+2) (col+1) = p.cell ∧
      cellAt b (row+1) (col+2) = p.cell ∧ cellAt b row (col+3) = p.cell)

end ConnectFour

namespace ConnectFour

example : get_valid_moves empty_board = [0, 1, 2, 3, 4, 5, 6] := by decide

example : check_winner empty_board Player.R = false := by decide

end ConnectFour
namespace ConnectFour

/-- The four scanning loops of `check_winner` cover exactly the lines of
`winSpec` (shared helper for several claims). -/
theorem check_winner_iff (b : Board) (p : Player) :
    check_winner b p = true ↔ winSpec b p := by
  unfold check_winner winSpec ROWS COLS
  simp only [List.any_eq_true, List.mem_range, List.mem_range'_1, Bool.or_eq_true,
    Bool.and_eq_true, beq_iff_eq]
  constructor
  · rintro (((⟨row, hrow, col, hcol, ⟨⟨h1, h2⟩, h3⟩, h4⟩ |
      ⟨col, hcol, row, hrow, ⟨⟨h1, h2⟩, h3⟩, h4⟩) |
      ⟨row, hrow, col, hcol, ⟨⟨h1, h2⟩, h3⟩, h4⟩) |
      ⟨row, hrow, col, hcol, ⟨⟨h1, h2⟩, h3⟩, h4⟩)
    · exact ⟨row, col, Or.inl ⟨by omega, by omega, h1, h2, h3, h4⟩⟩
    · exact ⟨row, col, Or.inr (Or.inl ⟨by omega, by omega, h1, h2, h3, h4⟩)⟩
    · exact ⟨row, col, Or.inr (Or.inr (Or.inl ⟨by omega, by omega, h1, h2, h3, h4⟩))⟩
    · refine ⟨row - 3, col, Or.inr (Or.inr (Or.inr ⟨by omega, by omega, ?_, ?_, ?_, ?_⟩))⟩
      · convert h1 using 2
        omega
      · convert h2 using 2
        omega
      · convert h3 using 2
        omega
      · convert h4 using 2
  · rintro ⟨row, col, (⟨hrow, hcol, h1, h2, h3, h4⟩ | ⟨hrow, hcol, h1, h2, h3, h4⟩ |
      ⟨hrow, hcol, h1, h2, h3, h4⟩ | ⟨hrow, hcol, h1, h2, h3, h4⟩)⟩
    · exact Or.inl (Or.inl (Or.inl ⟨row, by omega, col, by omega, ⟨⟨h1, h2⟩, h3⟩, h4⟩))
    · exact Or.inl (Or.inl (Or.inr ⟨col, by omega, row, by omega, ⟨⟨h1, h2⟩, h3⟩, h4⟩))
    · exact Or.inl (Or.inr ⟨row, by omega, col, by omega, ⟨⟨h1, h2⟩, h3⟩, h4⟩)
    · refine Or.inr ⟨row + 3, by omega, col, by omega, ⟨⟨h1, ?_⟩, ?_⟩, ?_⟩
      · convert h2 using 2
      · convert h3 using 2
      · convert h4 using 2

end ConnectFour
namespace ConnectFour

/-- C1: for every board and player, `check_winner` (the source's `hasWin`)
returns true iff the player occupies four contiguous cells somewhere on
the board in a horizontal row, a vertical column, or either diagonal
direction. -/
theorem claim_C1_check_winner_correct (b : Board) (p : Player) :
    check_winner b p = true ↔ winSpec b p :=
  check_winner_iff b p

lemma getD_set_self {α : Type} (l : List α) (i : Nat) (x d : α) (h : i < l.length) :
    (l.set i x).getD i d = x := by
  simp [List.getD_eq_getElem?_getD, List.getElem?_set_eq_of_lt, h]

lemma getD_set_ne {α : Type} (l : List α) (i j : Nat) (x d : α) (h : i ≠ j) :
    (l.set i x).getD j d = l.getD j d := by
  simp [List.getD_eq_getElem?_getD, List.getElem?_set_ne h]

/-- `find?` over `reversed(range(n))` returns the greatest index
satisfying the predicate. -/
lemma find?_reverse_range_some {n r : Nat} {q : Nat → Bool}
    (h : (List.range n).reverse.find? q = some r) :
    r < n ∧ q r = true ∧ ∀ s, r < s → s < n → q s = false := by
  induction n with
  | zero => simp [List.range_zero] at h
  | succ n ih =>
    have hrw : ((List.range n) ++ [n]).reverse = n :: (List.range n).reverse := by simp
    rw [List.range_succ, hrw, List.find?_cons] at h
    cases hq : q n with
    | true =>
      rw [hq] at h
      simp only [Option.some.injEq] at h
      subst h
      exact ⟨by omega, hq, fun s hs hs' => by omega⟩
    | false =>
      rw [hq] at h
      obtain ⟨h1, h2, h3⟩ := ih h
      refine ⟨by omega, h2, fun s hs hs' => ?_⟩
      rcases Nat.lt_or_ge s n with hlt | hge
      · exact h3 s hs hlt
      · have : s = n := by omega
        subst this
        exact hq

/-- If the bottom-up scan finds no empty cell, every row of the column is
occupied. -/
lemma find?_reverse_range_none {n : Nat} {q : Nat → Bool}
    (h : (List.range n).reverse.find? q = none) : ∀ r, r < n → q r = false := by
  intro r hr
  have := List.find?_eq_none.mp h r (by simp [List.mem_reverse, List.mem_range]; omega)
  simpa using this

/-- Where `make_move` places the piece: the scan from the bottom row
upward stops at the greatest row index whose cell is empty, so the cell
it fills has no empty cell below it. -/
theorem make_move_spec (b : Board) (col : Nat) (p : Player)
    (h : ∃ r, r < ROWS ∧ cellAt b r col = Cell.empty) :
    ∃ r, r < ROWS ∧ cellAt b r col = Cell.empty ∧
      (∀ s, r < s → s < ROWS → cellAt b s col ≠ Cell.empty) ∧
      make_move b col p = b.set r ((b.getD r []).set col p.cell) := by
  unfold make_move
  cases hf : (List.range ROWS).reverse.find? (fun row => cellAt b row col == Cell.empty) with
  | none =>
    exfalso
    obtain ⟨r, hr, hc⟩ := h
    have := find?_reverse_range_none hf r hr
    simp [hc] at this
  | some r =>
    obtain ⟨hr, hq, hafter⟩ := find?_reverse_range_some hf
    refine ⟨r, hr, by simpa using hq, ?_, rfl⟩
    intro s hrs hsR hse
    have := hafter s hrs hsR
    simp [hse] at this

/-- When every cell of the column is occupied, the scan finds nothing and
`make_move` returns the (copy of the) board unchanged. -/
theorem make_move_of_full_column (b : Board) (col : Nat) (p : Player)
    (h : ∀ r, r < ROWS → cellAt b r col ≠ Cell.empty) :
    make_move b col p = b := by
  unfold make_move
  cases hf : (List.range ROWS).reverse.find? (fun row => cellAt b row col == Cell.empty) with
  | none => rfl
  | some r =>
    exfalso
    obtain ⟨hr, hq, _⟩ := find?_reverse_range_some hf
    exact h r hr (by simpa using hq)

end ConnectFour
namespace ConnectFour

/-- A board whose column 0 is completely full and all other cells are
empty (reachable by alternating play in column 0). -/
def full_col_board : Board :=
  [[.R, .empty, .empty, .empty, .empty, .empty, .empty],
   [.Y, .empty, .empty, .empty, .empty, .empty, .empty],
   [.R, .empty, .empty, .empty, .empty, .empty, .empty],
   [.Y, .empty, .empty, .empty, .empty, .empty, .empty],
   [.R, .empty, .empty, .empty, .empty, .empty, .empty],
   [.Y, .empty, .empty, .empty, .empty, .empty, .empty]]

/-- The spec's board invariant (§3, gravity): a piece always rests on a
piece — an occupied cell has an occupied cell directly below it (row
indices grow downward). Holds for every reachable board. -/
def Gravity (b : Board) : Prop :=
  ∀ c, c < COLS → ∀ r, r < ROWS - 1 →
    cellAt b r c ≠ Cell.empty → cellAt b (r+1) c ≠ Cell.empty

instance (b : Board) : Decidable (Gravity b) := by
  unfold Gravity
  infer_instance

/-- C2 counterexample: on a board whose column 0 is full, `make_move`
does not fail — it has no error path at all — and returns the board
unchanged, i.e. it succeeds silently.  (In the Python source the loop
over rows finds no `"."` cell and simply falls through; no
`InvalidMoveError` exists anywhere in the program.) -/
theorem claim_C2_counterexample :
    cellAt full_col_board 0 0 ≠ Cell.empty ∧
    make_move full_col_board 0 Player.R = full_col_board := by decide

/-- C2 amended: `make_move` never raises; when every cell of the chosen
column is occupied it silently returns an unchanged copy of the board. -/
theorem claim_C2_amended_silent_noop (b : Board) (col : Nat) (p : Player)
    (h : ∀ r, r < ROWS → cellAt b r col ≠ Cell.empty) :
    make_move b col p = b :=
  make_move_of_full_column b col p h

/-- Witness for C2's amended theorem at the concrete full column. -/
theorem claim_C2_amended_witness :
    (∀ r, r < ROWS → cellAt full_col_board r 0 ≠ Cell.empty) ∧
    make_move full_col_board 0 Player.Y = full_col_board :=
  ⟨by decide, claim_C2_amended_silent_noop full_col_board 0 Player.Y (by decide)⟩

/-- C10: on any board satisfying the gravity invariant (every reachable
board does) whose column `col` has an occupied top cell, `make_move`
raises no error and returns a board structurally equal to the input:
no cell is changed and no piece is placed. -/
theorem claim_C10_full_column_noop (b : Board) (col : Nat) (p : Player)
    (hg : Gravity b) (hcol : col < COLS) (htop : cellAt b 0 col ≠ Cell.empty) :
    make_move b col p = b := by
  apply make_move_of_full_column
  intro r hr
  induction r with
  | zero => exact htop
  | succ n ih => exact hg col hcol n (by omega) (ih (by omega))

/-- Witness for C10 at the concrete full column. -/
theorem claim_C10_witness :
    Gravity full_col_board ∧ 0 < COLS ∧ cellAt full_col_board 0 0 ≠ Cell.empty ∧
    make_move full_col_board 0 Player.R = full_col_board :=
  ⟨by decide, by decide, by decide,
    claim_C10_full_column_noop full_col_board 0 Player.R (by decide) (by decide) (by decide)⟩

end ConnectFour
namespace ConnectFour

/-- Membership in `get_valid_moves`: exactly the in-range columns whose
top cell is empty. -/
lemma mem_get_valid_moves (b : Board) (c : Nat) :
    c ∈ get_valid_moves b ↔ c < COLS ∧ cellAt b 0 c = Cell.empty := by
  simp [get_valid_moves, List.mem_filter, List.mem_range]

/-- `get_valid_moves` lists columns in strictly ascending order. -/
lemma get_valid_moves_pairwise (b : Board) :
    (get_valid_moves b).Pairwise (· < ·) :=
  (List.pairwise_lt_range COLS).sublist (List.filter_sublist _)

/-- Rows of a well-formed board have length `COLS`. -/
lemma WF.row_length {b : Board} (h : WF b) {r : Nat} (hr : r < ROWS) :
    (b.getD r []).length = COLS := by
  obtain ⟨hlen, hall⟩ := h
  have hrb : r < b.length := by rw [hlen]; exact hr
  rw [List.getD_eq_getElem?_getD, List.getElem?_eq_getElem hrb]
  exact hall _ (List.getElem_mem hrb)

/-- `make_move` preserves the board dimensions. -/
lemma WF.make_move {b : Board} (h : WF b) (col : Nat) (p : Player) :
    WF (ConnectFour.make_move b col p) := by
  unfold ConnectFour.make_move
  cases hf : (List.range ROWS).reverse.find? (fun row => cellAt b row col == Cell.empty) with
  | none => exact h
  | some r =>
    obtain ⟨hlen, hall⟩ := h
    constructor
    · rw [List.length_set]; exact hlen
    · intro row hrow
      rcases List.mem_or_eq_of_mem_set hrow with hmem | rfl
      · exact hall _ hmem
      · rw [List.length_set]
        exact WF.row_length ⟨hlen, hall⟩ (find?_reverse_range_some hf).1

/-- Full effect of a legal move: the piece lands in the lowest empty
cell of the column and nothing else changes (shared helper). -/
lemma make_move_effect {b : Board} (hwf : WF b) {c : Nat}
    (hc : c ∈ get_valid_moves b) (p : Player) :
    ∃ r, r < ROWS ∧ cellAt b r c = Cell.empty ∧
      (∀ s, r < s → s < ROWS → cellAt b s c ≠ Cell.empty) ∧
      cellAt (make_move b c p) r c = p.cell ∧
      (∀ r2 c2, r2 < ROWS → c2 < COLS → ¬(r2 = r ∧ c2 = c) →
        cellAt (make_move b c p) r2 c2 = cellAt b r2 c2) ∧
      WF (make_move b c p) := by
  obtain ⟨hcC, htop⟩ := (mem_get_valid_moves b c).mp hc
  obtain ⟨r, hr, hre, hbelow, heq⟩ := make_move_spec b c p ⟨0, by unfold ROWS; omega, htop⟩
  have hrb : r < b.length := by rw [hwf.1]; exact hr
  have hrowlen : (b.getD r []).length = COLS := hwf.row_length hr
  refine ⟨r, hr, hre, hbelow, ?_, ?_, hwf.make_move c p⟩
  · rw [heq]
    unfold cellAt
    rw [getD_set_self _ _ _ _ hrb, getD_set_self _ _ _ _ (by rw [hrowlen]; exact hcC)]
  · intro r2 c2 _ _ hne
    rw [heq]
    unfold cellAt
    rcases eq_or_ne r2 r with rfl | hrne
    · have hcne : c2 ≠ c := fun hcc => hne ⟨rfl, hcc⟩
      rw [getD_set_self _ _ _ _ hrb, getD_set_ne _ _ _ _ _ (Ne.symm hcne)]
    · rw [getD_set_ne _ _ _ _ _ (Ne.symm hrne)]

/-- C3: on every well-formed board (all reachable boards are),
`get_valid_moves` returns exactly the columns in `0..6` whose top cell
is empty, in ascending order; and for each of them and each player,
`make_move` places the player's piece in the lowest empty cell of that
column (every cell below it already occupied — no floating piece) and
changes no other cell, preserving the dimensions.  `make_move` operates
on a deep copy (in the embedding, a pure value), so the input board is
never mutated and repeated calls yield structurally equal results. -/
theorem claim_C3_valid_moves_apply (b : Board) (hwf : WF b) :
    ((∀ c, c ∈ get_valid_moves b ↔ (c < COLS ∧ cellAt b 0 c = Cell.empty)) ∧
      (get_valid_moves b).Pairwise (· < ·)) ∧
    (∀ c ∈ get_valid_moves b, ∀ p : Player,
      ∃ r, r < ROWS ∧ cellAt b r c = Cell.empty ∧
        (∀ s, r < s → s < ROWS → cellAt b s c ≠ Cell.empty) ∧
        cellAt (make_move b c p) r c = p.cell ∧
        (∀ r2 c2, r2 < ROWS → c2 < COLS → ¬(r2 = r ∧ c2 = c) →
          cellAt (make_move b c p) r2 c2 = cellAt b r2 c2) ∧
        WF (make_move b c p)) :=
  ⟨⟨fun c => mem_get_valid_moves b c, get_valid_moves_pairwise b⟩,
    fun _ hc p => make_move_effect hwf hc p⟩

/-- Witness for C3 at the initial empty board, column 3, player Red. -/
theorem claim_C3_witness :
    WF empty_board ∧
    (3 ∈ get_valid_moves empty_board ↔ (3 < COLS ∧ cellAt empty_board 0 3 = Cell.empty)) :=
  ⟨by decide, (claim_C3_valid_moves_apply empty_board (by decide)).1.1 3⟩

end ConnectFour
namespace ConnectFour

/-- `find_immediate_win_or_block(board, current_player)`: first scan the
valid columns for a move winning for the current player; failing that,
scan them for a move that would win for the opponent (to block); else
`None`. -/
def find_immediate_win_or_block (b : Board) (p : Player) : Option Nat :=
  match (get_valid_moves b).find? (fun col => check_winner (make_move b col p) p) with
  | some col => some col
  | none =>
    (get_valid_moves b).find? (fun col =>
      check_winner (make_move b col (get_next_player p)) (get_next_player p))

/-- On a strictly ascending list, `find?` returns the least element
satisfying the predicate. -/
lemma find?_sorted_min {l : List Nat} (hl : l.Pairwise (· < ·)) {q : Nat → Bool} {a : Nat}
    (h : l.find? q = some a) :
    a ∈ l ∧ q a = true ∧ ∀ x ∈ l, q x = true → a ≤ x := by
  induction l with
  | nil => simp at h
  | cons y ys ih =>
    rw [List.find?_cons] at h
    cases hq : q y with
    | true =>
      rw [hq] at h
      obtain rfl : y = a := by simpa using h
      refine ⟨List.mem_cons_self _ _, hq, ?_⟩
      intro x hx _
      rcases List.mem_cons.mp hx with rfl | hmem
      · exact Nat.le_refl _
      · exact Nat.le_of_lt (List.rel_of_pairwise_cons hl hmem)
    | false =>
      rw [hq] at h
      obtain ⟨h1, h2, h3⟩ := ih (List.Pairwise.of_cons hl) h
      refine ⟨List.mem_cons_of_mem _ h1, h2, ?_⟩
      intro x hx hqx
      rcases List.mem_cons.mp hx with rfl | hmem
      · rw [hq] at hqx; cases hqx
      · exact h3 x hmem hqx

/-- C5: the tactical check returns the smallest legal column that wins
immediately for the player if one exists; otherwise the smallest legal
column that would win immediately for the opponent if one exists
(a block); otherwise `none`.  Own wins take priority over blocks and
each phase scans columns in ascending order. -/
theorem claim_C5_find_immediate_win_or_block (b : Board) (p : Player) :
    (∀ c, find_immediate_win_or_block b p = some c →
      c ∈ get_valid_moves b ∧
      ((check_winner (make_move b c p) p = true ∧
         ∀ c' ∈ get_valid_moves b, check_winner (make_move b c' p) p = true → c ≤ c') ∨
       ((∀ c' ∈ get_valid_moves b, check_winner (make_move b c' p) p = false) ∧
         check_winner (make_move b c (get_next_player p)) (get_next_player p) = true ∧
         ∀ c' ∈ get_valid_moves b,
           check_winner (make_move b c' (get_next_player p)) (get_next_player p) = true →
             c ≤ c'))) ∧
    (find_immediate_win_or_block b p = none →
      ∀ c ∈ get_valid_moves b,
        check_winner (make_move b c p) p = false ∧
        check_winner (make_move b c (get_next_player p)) (get_next_player p) = false) := by
  constructor
  · intro c hc
    unfold find_immediate_win_or_block at hc
    cases hwin : (get_valid_moves b).find? (fun col => check_winner (make_move b col p) p) with
    | some c0 =>
      rw [hwin] at hc
      obtain rfl : c0 = c := by simpa using hc
      obtain ⟨hmem, hq, hmin⟩ := find?_sorted_min (get_valid_moves_pairwise b) hwin
      exact ⟨hmem, Or.inl ⟨hq, fun c' hc' hq' => hmin c' hc' hq'⟩⟩
    | none =>
      rw [hwin] at hc
      obtain ⟨hmem, hq, hmin⟩ := find?_sorted_min (get_valid_moves_pairwise b) hc
      refine ⟨hmem, Or.inr ⟨?_, hq, fun c' hc' hq' => hmin c' hc' hq'⟩⟩
      intro c' hc'
      have := List.find?_eq_none.mp hwin c' hc'
      simpa using this
  · intro hnone c hcmem
    unfold find_immediate_win_or_block at hnone
    cases hwin : (get_valid_moves b).find? (fun col => check_winner (make_move b col p) p) with
    | some c0 => rw [hwin] at hnone; cases hnone
    | none =>
      rw [hwin] at hnone
      constructor
      · have := List.find?_eq_none.mp hwin c hcmem
        simpa using this
      · have := List.find?_eq_none.mp hnone c hcmem
        simpa using this

/-- A board with three red pieces on the bottom row, columns 0–2. -/
def win3_board : Board :=
  [[.empty, .empty, .empty, .empty, .empty, .empty, .empty],
   [.empty, .empty, .empty, .empty, .empty, .empty, .empty],
   [.empty, .empty, .empty, .empty, .empty, .empty, .empty],
   [.empty, .empty, .empty, .empty, .empty, .empty, .empty],
   [.empty, .empty, .empty, .empty, .empty, .empty, .empty],
   [.R, .R, .R, .empty, .empty, .empty, .empty]]

/-- Witness for C5: on `win3_board`, Red's tactical check returns
column 3, which is a legal immediate win and the least such column. -/
theorem claim_C5_witness :
    3 ∈ get_valid_moves win3_board ∧
    ((check_winner (make_move win3_board 3 Player.R) Player.R = true ∧
       ∀ c' ∈ get_valid_moves win3_board,
         check_winner (make_move win3_board c' Player.R) Player.R = true → 3 ≤ c') ∨
     ((∀ c' ∈ get_valid_moves win3_board,
         check_winner (make_move win3_board c' Player.R) Player.R = false) ∧
       check_winner (make_move win3_board 3 (get_next_player Player.R))
           (get_next_player Player.R) = true ∧
       ∀ c' ∈ get_valid_moves win3_board,
         check_winner (make_move win3_board c' (get_next_player Player.R))
             (get_next_player Player.R) = true → 3 ≤ c')) :=
  (claim_C5_find_immediate_win_or_block win3_board Player.R).1 3 (by decide)

end ConnectFour
namespace ConnectFour

/-- `ai_move(board, current_player, difficulty)`.  The call
`random.random()` is threaded through as the explicit draw `r`,
`random.choice(get_valid_moves(board))` as the oracle `choice` applied
to the valid-move list, and the result of the `mcts(...)` call as
`mctsResult`.  The branch structure mirrors the source: one flat
condition over difficulties 1–4 guarding the random move, then the
tactical check only at difficulty 5, else MCTS. -/
def ai_move (b : Board) (p : Player) (difficulty : Nat) (r : ℚ)
    (choice : List Nat → Nat) (mctsResult : Nat) : Nat :=
  if (difficulty = 1 ∧ r < 1/5) ∨ (difficulty = 2 ∧ r < 3/20) ∨
      (difficulty = 3 ∧ r < 1/10) ∨ (difficulty = 4 ∧ r < 1/20) then
    choice (get_valid_moves b)
  else
    match (if difficulty = 5 then find_immediate_win_or_block b p else none) with
    | some c => c
    | none => mctsResult

/-- The spec's difficulty→threshold table (1→0.20, 2→0.15, 3→0.10,
4→0.05, no randomization at 5). -/
def difficultyThreshold : Nat → ℚ
  | 1 => 1/5
  | 2 => 3/20
  | 3 => 1/10
  | 4 => 1/20
  | _ => 0

/-- Decision policy as the spec words it (steps 1–3 of §4.5), for the
refinement claim C6: a table-driven random override for difficulties
1..4, the tactical check consulted at difficulty 5 only, and the search
result in all remaining cases. -/
def chooseMoveSpec (b : Board) (p : Player) (difficulty : Nat) (r : ℚ)
    (choice : List Nat → Nat) (searchResult : Nat) : Nat :=
  if 1 ≤ difficulty ∧ difficulty ≤ 4 ∧ r < difficultyThreshold difficulty then
    choice (get_valid_moves b)
  else if difficulty = 5 then
    match find_immediate_win_or_block b p with
    | some c => c
    | none => searchResult
  else searchResult

/-- The flat random-override condition of the source coincides with the
spec's table-driven one. -/
lemma ai_move_cond_iff (difficulty : Nat) (r : ℚ) :
    ((difficulty = 1 ∧ r < 1/5) ∨ (difficulty = 2 ∧ r < 3/20) ∨
      (difficulty = 3 ∧ r < 1/10) ∨ (difficulty = 4 ∧ r < 1/20)) ↔
    (1 ≤ difficulty ∧ difficulty ≤ 4 ∧ r < difficultyThreshold difficulty) := by
  constructor
  · rintro (⟨rfl, h⟩ | ⟨rfl, h⟩ | ⟨rfl, h⟩ | ⟨rfl, h⟩) <;>
      exact ⟨by omega, by omega, h⟩
  · rintro ⟨ha, hb, hc⟩
    interval_cases difficulty
    · exact Or.inl ⟨rfl, hc⟩
    · exact Or.inr (Or.inl ⟨rfl, hc⟩)
    · exact Or.inr (Or.inr (Or.inl ⟨rfl, hc⟩))
    · exact Or.inr (Or.inr (Or.inr ⟨rfl, hc⟩))

/-- C6: `ai_move` implements the spec's decision policy exactly: one
random draw `r`; a uniformly random legal column precisely when the
difficulty is 1–4 and `r` is under its threshold (0.20/0.15/0.10/0.05);
at difficulty 5 no random override, the tactical check runs and its
column is returned when present; in every remaining case (including
difficulties 1–4, where the tactical check is never consulted) the
search result is returned. -/
theorem claim_C6_ai_move_policy (b : Board) (p : Player) (difficulty : Nat) (r : ℚ)
    (choice : List Nat → Nat) (mctsResult : Nat) :
    ai_move b p difficulty r choice mctsResult =
      chooseMoveSpec b p difficulty r choice mctsResult := by
  unfold ai_move chooseMoveSpec
  rcases Decidable.em ((difficulty = 1 ∧ r < 1/5) ∨ (difficulty = 2 ∧ r < 3/20) ∨
      (difficulty = 3 ∧ r < 1/10) ∨ (difficulty = 4 ∧ r < 1/20)) with hA | hA
  · rw [if_pos hA, if_pos ((ai_move_cond_iff difficulty r).mp hA)]
  · rw [if_neg hA, if_neg (fun hB => hA ((ai_move_cond_iff difficulty r).mpr hB))]
    by_cases h5 : difficulty = 5
    · subst h5
      simp
    · simp only [if_neg h5]

end ConnectFour
namespace ConnectFour

/-- Left-to-right reflection of the board: each row reversed, so column
`c` becomes column `COLS - 1 - c`. -/
def mirror (b : Board) : Board := b.map List.reverse

lemma mirror_mirror (b : Board) : mirror (mirror b) = b := by
  simp [mirror, List.map_map, Function.comp]

lemma WF.mirror {b : Board} (h : WF b) : WF (ConnectFour.mirror b) := by
  obtain ⟨hlen, hall⟩ := h
  refine ⟨by simpa [ConnectFour.mirror] using hlen, ?_⟩
  intro row hrow
  obtain ⟨row0, hrow0, rfl⟩ := List.mem_map.mp hrow
  simpa using hall row0 hrow0

lemma cellAt_mirror {b : Board} (hwf : WF b) {r c : Nat}
    (hr : r < ROWS) (hc : c < COLS) :
    cellAt (mirror b) r c = cellAt b r (COLS - 1 - c) := by
  have hrb : r < b.length := by rw [hwf.1]; exact hr
  have hrowlen : (b.getD r []).length = COLS := hwf.row_length hr
  have hgd : b.getD r [] = b.get ⟨r, hrb⟩ := by
    rw [List.getD_eq_getElem?_getD, List.getElem?_eq_getElem hrb]
    rfl
  have hrowlen2 : (b.get ⟨r, hrb⟩).length = COLS := by rw [← hgd]; exact hrowlen
  have hmap : (mirror b).getD r [] = (b.get ⟨r, hrb⟩).reverse := by
    rw [mirror, List.getD_eq_getElem?_getD, List.getElem?_map,
      List.getElem?_eq_getElem hrb]
    rfl
  unfold cellAt
  rw [hmap, hgd]
  have hcrev : c < (b.get ⟨r, hrb⟩).reverse.length := by
    rw [List.length_reverse, hrowlen2]; exact hc
  have hc2 : COLS - 1 - c < (b.get ⟨r, hrb⟩).length := by rw [hrowlen2]; omega
  rw [List.getD_eq_getElem?_getD, List.getElem?_eq_getElem hcrev,
    List.getD_eq_getElem?_getD, List.getElem?_eq_getElem hc2]
  simp only [Option.getD_some]
  rw [List.getElem_reverse]
  congr 1
  rw [hrowlen2]

/-- Reflection maps every winning line to a winning line: horizontal to
horizontal, vertical to vertical, and each diagonal direction to the
other. -/
lemma winSpec_mirror_of {b : Board} (hwf : WF b) {p : Player}
    (h : winSpec b p) : winSpec (mirror b) p := by
  obtain ⟨row, col, hcase⟩ := h
  have hm : ∀ r c, r < ROWS → c < COLS →
      cellAt (mirror b) r c = cellAt b r (COLS - 1 - c) :=
    fun r c hr hc => cellAt_mirror hwf hr hc
  unfold ROWS COLS at *
  rcases hcase with ⟨hrow, hcol, h1, h2, h3, h4⟩ | ⟨hrow, hcol, h1, h2, h3, h4⟩ |
    ⟨hrow, hcol, h1, h2, h3, h4⟩ | ⟨hrow, hcol, h1, h2, h3, h4⟩
  · refine ⟨row, 3 - col, Or.inl ⟨hrow, by unfold COLS; omega, ?_, ?_, ?_, ?_⟩⟩
    · rw [hm row (3 - col) (by omega) (by omega)]
      convert h4 using 2
      omega
    · rw [hm row (3 - col + 1) (by omega) (by omega)]
      convert h3 using 2
      omega
    · rw [hm row (3 - col + 2) (by omega) (by omega)]
      convert h2 using 2
      omega
    · rw [hm row (3 - col + 3) (by omega) (by omega)]
      convert h1 using 2
      omega
  · refine ⟨row, 6 - col, Or.inr (Or.inl ⟨hrow, by unfold COLS; omega, ?_, ?_, ?_, ?_⟩)⟩
    · rw [hm row (6 - col) (by omega) (by omega)]
      convert h1 using 2
      omega
    · rw [hm (row + 1) (6 - col) (by omega) (by omega)]
      convert h2 using 2
      omega
    · rw [hm (row + 2) (6 - col) (by omega) (by omega)]
      convert h3 using 2
      omega
    · rw [hm (row + 3) (6 - col) (by omega) (by omega)]
      convert h4 using 2
      omega
  · refine ⟨row, 3 - col, Or.inr (Or.inr (Or.inr ⟨hrow, by unfold COLS; omega, ?_, ?_, ?_, ?_⟩))⟩
    · rw [hm (row + 3) (3 - col) (by omega) (by omega)]
      convert h4 using 2
      omega
    · rw [hm (row + 2) (3 - col + 1) (by omega) (by omega)]
      convert h3 using 2
      omega
    · rw [hm (row + 1) (3 - col + 2) (by omega) (by omega)]
      convert h2 using 2
      omega
    · rw [hm row (3 - col + 3) (by omega) (by omega)]
      convert h1 using 2
      omega
  · refine ⟨row, 3 - col, Or.inr (Or.inr (Or.inl ⟨hrow, by unfold COLS; omega, ?_, ?_, ?_, ?_⟩))⟩
    · rw [hm row (3 - col) (by omega) (by omega)]
      convert h4 using 2
      omega
    · rw [hm (row + 1) (3 - col + 1) (by omega) (by omega)]
      convert h3 using 2
      omega
    · rw [hm (row + 2) (3 - col + 2) (by omega) (by omega)]
      convert h2 using 2
      omega
    · rw [hm (row + 3) (3 - col + 3) (by omega) (by omega)]
      convert h1 using 2
      omega

/-- C9: `check_winner` is invariant under reflecting the board
left-to-right; horizontal lines map to horizontal lines and each
diagonal direction to the other. -/
theorem claim_C9_check_winner_mirror (b : Board) (p : Player) (hwf : WF b) :
    check_winner (mirror b) p = check_winner b p := by
  rw [Bool.eq_iff_iff, check_winner_iff, check_winner_iff]
  constructor
  · intro h
    have := winSpec_mirror_of hwf.mirror h
    rwa [mirror_mirror] at this
  · exact winSpec_mirror_of hwf

/-- Witness for C9 at the concrete `win3_board` (three red pieces at the
bottom left): its mirror image has the same `check_winner` verdict. -/
theorem claim_C9_witness :
    WF win3_board ∧
    check_winner (mirror win3_board) Player.R = check_winner win3_board Player.R :=
  ⟨by decide, claim_C9_check_winner_mirror win3_board Player.R (by decide)⟩

end ConnectFour
namespace ConnectFour

/-- An MCTS search-tree node: `current_player` (to move at the node),
the `wins` and `visits` counters, and the ordered child list.  The
`parent` back-reference of the Python class is represented by
identifying a node with its path of child indices from the root. -/
inductive MCTSTree where
  | node (current_player : Player) (wins visits : Nat) (children : List MCTSTree)

def MCTSTree.player : MCTSTree → Player
  | .node p _ _ _ => p

def MCTSTree.winCount : MCTSTree → Nat
  | .node _ w _ _ => w

def MCTSTree.visitCount : MCTSTree → Nat
  | .node _ _ v _ => v

/-- Replace the element at index `i` by its image under `f` (identity
out of range). -/
def modifyIdx {α : Type} : List α → Nat → (α → α) → List α
  | [], _, _ => []
  | a :: as, 0, f => f a :: as
  | a :: as, n+1, f => a :: modifyIdx as n f

lemma get?_modifyIdx {α : Type} (l : List α) (i j : Nat) (f : α → α) :
    (modifyIdx l i f).get? j = if i = j then (l.get? j).map f else l.get? j := by
  induction l generalizing i j with
  | nil => simp [modifyIdx]
  | cons a as ih =>
    cases i with
    | zero =>
      cases j with
      | zero => simp [modifyIdx]
      | succ j => simp [modifyIdx]
    | succ i =>
      cases j with
      | zero => simp [modifyIdx]
      | succ j => simpa [modifyIdx] using ih i j

/-- The node reached from `t` by following the child indices in `q`. -/
def subtreeAt : List Nat → MCTSTree → Option MCTSTree
  | [], t => some t
  | i :: q, .node _ _ _ cs =>
    match cs.get? i with
    | some c => subtreeAt q c
    | none => none

/-- The (player, wins, visits) triple of the node at path `q`. -/
def statsAt (q : List Nat) (t : MCTSTree) : Option (Player × Nat × Nat) :=
  (subtreeAt q t).map fun n => (n.player, n.winCount, n.visitCount)

/-- `backpropagate(node, winner)`: the source walks from the given node
up the `parent` chain to the root, adding 1 to `visits` everywhere and 1
to `wins` exactly where `winner == get_next_player(node.current_player)`
(never on a draw, `winner is None`).  With nodes addressed by paths,
that ancestor chain is exactly the chain of prefixes of the node's path,
so the walk is rendered as this top-down update along `path`. -/
def backpropagate (winner : Option Player) : List Nat → MCTSTree → MCTSTree
  | [], .node p w v cs =>
    .node p (w + if winner = some (get_next_player p) then 1 else 0) (v + 1) cs
  | i :: path, .node p w v cs =>
    .node p (w + if winner = some (get_next_player p) then 1 else 0) (v + 1)
      (modifyIdx cs i (backpropagate winner path))

/-- C4: `backpropagate` along `path` adds exactly 1 to `visits` at the
target node and each of its ancestors up to the root (the prefixes of
`path`), adds 1 to `wins` at precisely those nodes whose mover — the
opponent `next(current_player)` of the player to move there — equals the
outcome (so a draw outcome, `none`, increments no `wins`), and leaves
every other node of the tree untouched. -/
theorem claim_C4_backpropagate (winner : Option Player) (path : List Nat)
    (t : MCTSTree) (q : List Nat) :
    (q <+: path → statsAt q (backpropagate winner path t) =
      (statsAt q t).map fun s =>
        (s.1, s.2.1 + (if winner = some (get_next_player s.1) then 1 else 0), s.2.2 + 1)) ∧
    (¬ q <+: path → subtreeAt q (backpropagate winner path t) = subtreeAt q t) := by
  induction path generalizing t q with
  | nil =>
    cases t with
    | node p w v cs =>
      constructor
      · intro hq
        rw [List.prefix_nil.mp hq]
        simp [statsAt, subtreeAt, backpropagate, MCTSTree.player, MCTSTree.winCount,
          MCTSTree.visitCount]
      · intro hq
        cases q with
        | nil => exact absurd (List.nil_prefix) hq
        | cons j q' => simp [backpropagate, subtreeAt]
  | cons i path ih =>
    cases t with
    | node p w v cs =>
      constructor
      · intro hq
        cases q with
        | nil =>
          simp [statsAt, subtreeAt, backpropagate, MCTSTree.player, MCTSTree.winCount,
            MCTSTree.visitCount]
        | cons j q' =>
          obtain ⟨rfl, hq'⟩ := List.cons_prefix_cons.mp hq
          simp only [backpropagate, statsAt, subtreeAt, get?_modifyIdx, if_pos rfl]
          cases hc : cs.get? j with
          | none => simp
          | some c =>
            simp only [Option.map_some']
            exact (ih c q').1 hq'
      · intro hq
        cases q with
        | nil => exact absurd (List.nil_prefix) hq
        | cons j q' =>
          by_cases hj : j = i
          · subst hj
            have hq' : ¬ q' <+: path := fun h => hq (List.cons_prefix_cons.mpr ⟨rfl, h⟩)
            simp only [backpropagate, subtreeAt, get?_modifyIdx, if_pos rfl]
            cases hc : cs.get? j with
            | none => simp
            | some c =>
              simp only [Option.map_some']
              exact (ih c q').2 hq'
          · simp only [backpropagate, subtreeAt, get?_modifyIdx,
              if_neg (fun h : i = j => hj h.symm)]

end ConnectFour
namespace ConnectFour

/-- Number of empty cells on the board. -/
def emptyCount (b : Board) : Nat :=
  (b.map fun row => row.count Cell.empty).sum

lemma Player.cell_ne_empty (p : Player) : p.cell ≠ Cell.empty := by
  cases p <;> simp [Player.cell]

lemma sum_set_nat (l : List Nat) (i x : Nat) (h : i < l.length) :
    (l.set i x).sum + l.getD i 0 = l.sum + x := by
  induction l generalizing i with
  | nil => simp at h
  | cons a as ih =>
    cases i with
    | zero => simp [List.set]; omega
    | succ i =>
      have := ih i (by simpa using h)
      simp only [List.set, List.sum_cons, List.getD_cons_succ]
      omega

lemma count_set_empty_cell (row : List Cell) (c : Nat) (x : Cell)
    (h : c < row.length) (he : row.getD c Cell.empty = Cell.empty)
    (hx : x ≠ Cell.empty) :
    (row.set c x).count Cell.empty + 1 = row.count Cell.empty := by
  induction row generalizing c with
  | nil => simp at h
  | cons a as ih =>
    cases c with
    | zero =>
      obtain rfl : a = Cell.empty := by simpa using he
      simp [List.count_cons, hx]
    | succ c =>
      have := ih c (by simpa using h) (by simpa using he)
      simp only [List.set, List.count_cons]
      omega

/-- Applying a legal move fills exactly one empty cell. -/
lemma emptyCount_make_move {b : Board} (hwf : WF b) {c : Nat}
    (hc : c ∈ get_valid_moves b) (p : Player) :
    emptyCount (make_move b c p) + 1 = emptyCount b := by
  obtain ⟨hcC, htop⟩ := (mem_get_valid_moves b c).mp hc
  obtain ⟨r, hr, hre, _, heq⟩ := make_move_spec b c p ⟨0, by unfold ROWS; omega, htop⟩
  have hrb : r < b.length := by rw [hwf.1]; exact hr
  have hrowlen : (b.getD r []).length = COLS := hwf.row_length hr
  rw [heq]
  unfold emptyCount
  rw [List.map_set]
  have hsum := sum_set_nat (b.map fun row => row.count Cell.empty) r
    (((b.getD r []).set c p.cell).count Cell.empty) (by simpa using hrb)
  have hgd : (b.map fun row => row.count Cell.empty).getD r 0 =
      (b.getD r []).count Cell.empty := by
    rw [List.getD_eq_getElem?_getD, List.getElem?_map, List.getElem?_eq_getElem hrb,
      List.getD_eq_getElem?_getD, List.getElem?_eq_getElem hrb]
    rfl
  have hcount := count_set_empty_cell (b.getD r []) c p.cell
    (by rw [hrowlen]; exact hcC) hre (Player.cell_ne_empty p)
  rw [hgd] at hsum
  omega

/-- A well-formed board has at most 42 empty cells. -/
lemma emptyCount_le_42 {b : Board} (hwf : WF b) : emptyCount b ≤ 42 := by
  obtain ⟨hlen, hall⟩ := hwf
  have hbound : ∀ x ∈ b.map fun row => row.count Cell.empty, x ≤ 7 := by
    intro x hx
    obtain ⟨row, hrow, rfl⟩ := List.mem_map.mp hx
    calc row.count Cell.empty ≤ row.length := List.count_le_length _ _
    _ = 7 := hall row hrow
  have := List.sum_le_card_nsmul _ 7 hbound
  simp only [List.length_map, hlen] at this
  unfold emptyCount
  calc (b.map fun row => row.count Cell.empty).sum ≤ ROWS * 7 := by simpa using this
  _ = 42 := by unfold ROWS; omega

/-- `simulate_game(board, current_player)` with an explicit fuel bound
for the `while True` loop and the random source threaded through:
`pick step` chooses (modulo the number of valid moves) which valid
column `random.choice(moves)` picks at iteration `step`.  The result
pairs the outcome (`some winner` or `none` for a draw) with the final
simulated board, which the source holds in `sim_board`; `none` at the
outer level means the fuel ran out (never happens from a well-formed
board, as proved below). -/
def simulate_game (pick : Nat → Nat) :
    Nat → Nat → Board → Player → Option (Option Player × Board)
  | 0, _, _, _ => none
  | fuel+1, step, b, p =>
    let moves := get_valid_moves b
    if moves.isEmpty then some (none, b)
    else
      let col := moves.getD (pick step % moves.length) 0
      let b2 := make_move b col p
      if check_winner b2 p then some (some p, b2)
      else simulate_game pick fuel (step+1) b2 (get_next_player p)

/-- Unfolding equation for one loop iteration. -/
lemma simulate_game_succ (pick : Nat → Nat) (fuel step : Nat) (b : Board) (p : Player) :
    simulate_game pick (fuel+1) step b p =
      (let moves := get_valid_moves b
       if moves.isEmpty then some (none, b)
       else
         let col := moves.getD (pick step % moves.length) 0
         let b2 := make_move b col p
         if check_winner b2 p then some (some p, b2)
         else simulate_game pick fuel (step+1) b2 (get_next_player p)) := rfl

/-- The chosen column is always one of the valid moves. -/
lemma getD_mod_mem {l : List Nat} (h : ¬ l.isEmpty = true) (k : Nat) :
    l.getD (k % l.length) 0 ∈ l := by
  have hlen : 0 < l.length := by
    cases l with
    | nil => simp at h
    | cons a as => simp
  have hlt : k % l.length < l.length := Nat.mod_lt _ hlen
  rw [List.getD_eq_getElem?_getD, List.getElem?_eq_getElem hlt]
  exact List.getElem_mem hlt

/-- Fuel exceeding the number of empty cells suffices: the rollout
returns, and a reported winner has four in a row on the final board. -/
lemma simulate_game_total (pick : Nat → Nat) :
    ∀ fuel b p step, WF b → emptyCount b < fuel →
      ∃ o fb, simulate_game pick fuel step b p = some (o, fb) ∧
        (∀ q : Player, o = some q → check_winner fb q = true) := by
  intro fuel
  induction fuel with
  | zero => intro b p step _ hfuel; omega
  | succ fuel ih =>
    intro b p step hwf hfuel
    by_cases hmoves : (get_valid_moves b).isEmpty = true
    · refine ⟨none, b, ?_, ?_⟩
      · rw [simulate_game_succ]
        show (if (get_valid_moves b).isEmpty = true then some (none, b)
          else if check_winner
              (make_move b ((get_valid_moves b).getD
                (pick step % (get_valid_moves b).length) 0) p) p = true
          then some (some p, make_move b ((get_valid_moves b).getD
              (pick step % (get_valid_moves b).length) 0) p)
          else simulate_game pick fuel (step+1)
            (make_move b ((get_valid_moves b).getD
              (pick step % (get_valid_moves b).length) 0) p)
            (get_next_player p)) = some (none, b)
        rw [if_pos hmoves]
      · intro q hq; cases hq
    · have hmem := getD_mod_mem hmoves (pick step)
      have hwf2 : WF (make_move b ((get_valid_moves b).getD
          (pick step % (get_valid_moves b).length) 0) p) :=
        hwf.make_move _ p
      have hdec := emptyCount_make_move hwf hmem p
      by_cases hwin : check_winner (make_move b ((get_valid_moves b).getD
          (pick step % (get_valid_moves b).length) 0) p) p = true
      · refine ⟨some p, make_move b ((get_valid_moves b).getD
            (pick step % (get_valid_moves b).length) 0) p, ?_, ?_⟩
        · rw [simulate_game_succ]
          show (if (get_valid_moves b).isEmpty = true then some (none, b)
            else if check_winner
                (make_move b ((get_valid_moves b).getD
                  (pick step % (get_valid_moves b).length) 0) p) p = true
            then some (some p, make_move b ((get_valid_moves b).getD
                (pick step % (get_valid_moves b).length) 0) p)
            else simulate_game pick fuel (step+1)
              (make_move b ((get_valid_moves b).getD
                (pick step % (get_valid_moves b).length) 0) p)
              (get_next_player p)) = _
          rw [if_neg hmoves, if_pos hwin]
        · intro q hq
          obtain rfl : p = q := by simpa using hq
          exact hwin
      · obtain ⟨o, fb, hrec, hprop⟩ := ih (make_move b ((get_valid_moves b).getD
            (pick step % (get_valid_moves b).length) 0) p)
          (get_next_player p) (step+1) hwf2 (by omega)
        refine ⟨o, fb, ?_, hprop⟩
        rw [simulate_game_succ]
        show (if (get_valid_moves b).isEmpty = true then some (none, b)
          else if check_winner
              (make_move b ((get_valid_moves b).getD
                (pick step % (get_valid_moves b).length) 0) p) p = true
          then some (some p, make_move b ((get_valid_moves b).getD
              (pick step % (get_valid_moves b).length) 0) p)
          else simulate_game pick fuel (step+1)
            (make_move b ((get_valid_moves b).getD
              (pick step % (get_valid_moves b).length) 0) p)
            (get_next_player p)) = some (o, fb)
        rw [if_neg hmoves, if_neg hwin]
        exact hrec

/-- C8: from any well-formed board (all reachable boards are), the
rollout terminates within the board capacity — fuel 43, i.e. at most 42
move iterations plus the final draw check, is always enough — and
returns an outcome in {Red wins, Yellow wins, draw}; whenever it
reports a winner `q`, the final simulated board satisfies
`check_winner _ q`. -/
theorem claim_C8_simulate_game_terminates (b : Board) (p : Player)
    (pick : Nat → Nat) (step : Nat) (hwf : WF b) :
    ∃ o fb, simulate_game pick 43 step b p = some (o, fb) ∧
      (∀ q : Player, o = some q → check_winner fb q = true) :=
  simulate_game_total pick 43 b p step hwf
    (Nat.lt_succ_of_le (emptyCount_le_42 hwf))

/-- Witness for C8: the rollout from the empty board with the
always-leftmost choice oracle terminates with a well-founded outcome. -/
theorem claim_C8_witness :
    WF empty_board ∧
    ∃ o fb, simulate_game (fun _ => 0) 43 0 empty_board Player.R = some (o, fb) ∧
      (∀ q : Player, o = some q → check_winner fb q = true) :=
  ⟨by decide, claim_C8_simulate_game_terminates empty_board Player.R (fun _ => 0) 0 (by decide)⟩

/-- A two-level tree used as concrete input for the backpropagation
claim. -/
def demo_tree : MCTSTree :=
  .node .R 0 2 [.node .Y 1 1 [], .node .Y 0 1 []]

/-- Witness for C4 along the path to the first child. -/
theorem claim_C4_witness :
    ([0] <+: [0]) ∧
    statsAt [0] (backpropagate (some Player.R) [0] demo_tree) =
      (statsAt [0] demo_tree).map (fun s =>
        (s.1, s.2.1 + (if some Player.R = some (get_next_player s.1) then 1 else 0),
          s.2.2 + 1)) :=
  ⟨List.prefix_refl _, (claim_C4_backpropagate (some Player.R) [0] demo_tree [0]).1 (List.prefix_refl _)⟩

end ConnectFour
namespace ConnectFour

/-- A root child as the final selection of `mcts` sees it: the board it
was expanded to and its visit counter. -/
structure RootChild where
  board : Board
  visits : Nat

/-- One step of Python's `max(..., key=lambda c: c.visits)`: the running
best is replaced only on a strictly greater key, so the first maximum
wins ties. -/
def visitStep (best x : RootChild) : RootChild :=
  if x.visits > best.visits then x else best

/-- `max(root_node.children, key=lambda c: c.visits)` on a non-empty
list, `None` on an empty one (the source guards with
`if root_node.children else None`). -/
def maxByVisits : List RootChild → Option RootChild
  | [] => none
  | c :: cs => some (cs.foldl visitStep c)

/-- Lines 194–207 of `mcts.py`: after the search loop, pick the child
with the most visits; map it back to a column by recomputing
`make_move` for each valid column and comparing boards; fall back to
`random.choice(get_valid_moves(root_board))` (the oracle `choice`) if
there is no child or no matching column. -/
def mcts_select_move (root_board : Board) (current_player : Player)
    (children : List RootChild) (choice : List Nat → Nat) : Nat :=
  match maxByVisits children with
  | none => choice (get_valid_moves root_board)
  | some best =>
    match (get_valid_moves root_board).find?
        (fun col => make_move root_board col current_player == best.board) with
    | some col => col
    | none => choice (get_valid_moves root_board)

/-- The fold underlying `maxByVisits` computes the first-encountered
maximum of the visit counts. -/
lemma foldl_visitStep_spec (cs : List RootChild) :
    ∀ c : RootChild,
      (cs.foldl visitStep c) ∈ c :: cs ∧
      (∀ x ∈ c :: cs, x.visits ≤ (cs.foldl visitStep c).visits) ∧
      ∃ i, (c :: cs).get? i = some (cs.foldl visitStep c) ∧
        ∀ j, j < i → ∀ cj, (c :: cs).get? j = some cj →
          cj.visits < (cs.foldl visitStep c).visits := by
  induction cs with
  | nil =>
    intro c
    refine ⟨List.mem_cons_self _ _, ?_, 0, rfl, ?_⟩
    · intro x hx
      rcases List.mem_cons.mp hx with rfl | h
      · exact Nat.le_refl _
      · cases h
    · intro j hj cj hcj
      omega
  | cons x cs ih =>
    intro c
    have hfold : (x :: cs).foldl visitStep c = cs.foldl visitStep (visitStep c x) := rfl
    by_cases hcmp : c.visits < x.visits
    · have hstep : visitStep c x = x := by simp [visitStep, hcmp]
      rw [hfold, hstep]
      obtain ⟨hmem, hbound, i, hi, hfirst⟩ := ih x
      have hxle : x.visits ≤ (cs.foldl visitStep x).visits :=
        hbound x (List.mem_cons_self _ _)
      refine ⟨?_, ?_, i + 1, hi, ?_⟩
      · exact List.mem_cons_of_mem _ hmem
      · intro y hy
        rcases List.mem_cons.mp hy with rfl | hy2
        · exact Nat.le_trans (Nat.le_of_lt hcmp) hxle
        · exact hbound y hy2
      · intro j hj cj hcj
        cases j with
        | zero =>
          obtain rfl : c = cj := by simpa using hcj
          exact Nat.lt_of_lt_of_le hcmp hxle
        | succ j =>
          exact hfirst j (by omega) cj hcj
    · have hstep : visitStep c x = c := by
        simp only [visitStep, if_neg (by omega : ¬ x.visits > c.visits)]
      rw [hfold, hstep]
      obtain ⟨hmem, hbound, i, hi, hfirst⟩ := ih c
      have hcle : c.visits ≤ (cs.foldl visitStep c).visits :=
        hbound c (List.mem_cons_self _ _)
      refine ⟨?_, ?_, ?_⟩
      · rcases List.mem_cons.mp hmem with heq | h
        · rw [heq]; exact List.mem_cons_self _ _
        · exact List.mem_cons_of_mem _ (List.mem_cons_of_mem _ h)
      · intro y hy
        rcases List.mem_cons.mp hy with rfl | hy2
        · exact hcle
        rcases List.mem_cons.mp hy2 with rfl | hy3
        · exact Nat.le_trans (by omega) hcle
        · exact hbound y (List.mem_cons_of_mem _ hy3)
      · cases i with
        | zero =>
          exact ⟨0, hi, fun j hj cj hcj => by omega⟩
        | succ k =>
          refine ⟨k + 2, hi, ?_⟩
          intro j hj cj hcj
          have hc_lt : c.visits < (cs.foldl visitStep c).visits :=
            hfirst 0 (by omega) c rfl
          match j with
          | 0 =>
            obtain rfl : c = cj := by simpa using hcj
            exact hc_lt
          | 1 =>
            obtain rfl : x = cj := by simpa using hcj
            exact Nat.lt_of_le_of_lt (by omega) hc_lt
          | (j' + 2) =>
            exact hfirst (j' + 1) (by omega) cj hcj

/-- Distinct legal columns produce distinct boards: each move leaves the
other's landing cell empty. -/
lemma make_move_ne {b : Board} (hwf : WF b) {c1 c2 : Nat}
    (h1 : c1 ∈ get_valid_moves b) (h2 : c2 ∈ get_valid_moves b) (p : Player)
    (hne : c1 ≠ c2) : make_move b c1 p ≠ make_move b c2 p := by
  obtain ⟨r1, hr1, he1, _, hp1, _, _⟩ := make_move_effect hwf h1 p
  obtain ⟨r2, hr2, he2, _, hp2, hother2, _⟩ := make_move_effect hwf h2 p
  intro heq
  have hc1C := ((mem_get_valid_moves b c1).mp h1).1
  have h2eq : cellAt (make_move b c2 p) r1 c1 = cellAt b r1 c1 :=
    hother2 r1 c1 hr1 hc1C (fun h => hne h.2)
  rw [← heq, hp1, he1] at h2eq
  exact Player.cell_ne_empty p h2eq

/-- When the predicate holds exactly at `m ∈ l`, `find?` returns `m`. -/
lemma find?_eq_some_of_unique {l : List Nat} {q : Nat → Bool} {m : Nat}
    (hm : m ∈ l) (hq : ∀ x ∈ l, (q x = true ↔ x = m)) : l.find? q = some m := by
  induction l with
  | nil => cases hm
  | cons a as ih =>
    by_cases ha : a = m
    · subst ha
      rw [List.find?_cons_of_pos as ((hq a (List.mem_cons_self _ _)).mpr rfl)]
    · have hqa : ¬ q a = true := fun h => ha ((hq a (List.mem_cons_self _ _)).mp h)
      rw [List.find?_cons_of_neg as (by simpa using hqa)]
      apply ih
      · rcases List.mem_cons.mp hm with rfl | h
        · exact absurd rfl ha
        · exact h
      · intro x hx
        exact hq x (List.mem_cons_of_mem _ hx)

/-- C7: after the search loop, when the root has at least one child
(each child being the result of a legal expansion), the returned column
is exactly the one whose `make_move` image is the board of the child
with the greatest visit count, ties resolved in favour of the
first-encountered child; when the root has no children, the fallback is
the random-choice oracle applied to the legal columns. -/
theorem claim_C7_mcts_final_selection (root_board : Board) (current_player : Player)
    (children : List RootChild) (choice : List Nat → Nat)
    (hwf : WF root_board)
    (hch : ∀ ch ∈ children, ∃ m, m ∈ get_valid_moves root_board ∧
      ch.board = make_move root_board m current_player) :
    (children = [] → mcts_select_move root_board current_player children choice =
      choice (get_valid_moves root_board)) ∧
    (children ≠ [] → ∃ best, maxByVisits children = some best ∧
      best ∈ children ∧
      (∀ x ∈ children, x.visits ≤ best.visits) ∧
      (∃ i, children.get? i = some best ∧
        ∀ j, j < i → ∀ cj, children.get? j = some cj → cj.visits < best.visits) ∧
      ∃ m, m ∈ get_valid_moves root_board ∧
        make_move root_board m current_player = best.board ∧
        mcts_select_move root_board current_player children choice = m) := by
  constructor
  · rintro rfl
    rfl
  · intro hne
    obtain ⟨c, cs, rfl⟩ := List.exists_cons_of_ne_nil hne
    obtain ⟨hmem, hbound, i, hi, hfirst⟩ := foldl_visitStep_spec cs c
    refine ⟨cs.foldl visitStep c, rfl, hmem, hbound, ⟨i, hi, hfirst⟩, ?_⟩
    obtain ⟨m, hmval, hmb⟩ := hch _ hmem
    refine ⟨m, hmval, hmb.symm, ?_⟩
    unfold mcts_select_move
    show (match (get_valid_moves root_board).find?
        (fun col => make_move root_board col current_player ==
          (cs.foldl visitStep c).board) with
      | some col => col
      | none => choice (get_valid_moves root_board)) = m
    rw [find?_eq_some_of_unique hmval ?_]
    · intro x hx
      constructor
      · intro hbeq
        by_contra hxm
        have hxb : make_move root_board x current_player =
            (cs.foldl visitStep c).board := eq_of_beq hbeq
        rw [hmb] at hxb
        exact make_move_ne hwf hx hmval current_player hxm hxb
      · rintro rfl
        rw [← hmb]
        simp

/-- Two expanded root children of the empty board for the C7 witness:
column 0 visited once, column 1 visited three times. -/
def demo_children : List RootChild :=
  [⟨make_move empty_board 0 Player.R, 1⟩, ⟨make_move empty_board 1 Player.R, 3⟩]

/-- Witness for C7: with a non-empty child list the selection returns
the column of the most-visited child. -/
theorem claim_C7_witness :
    WF empty_board ∧
    demo_children ≠ [] ∧
    ∃ best, maxByVisits demo_children = some best ∧
      best ∈ demo_children ∧
      (∀ x ∈ demo_children, x.visits ≤ best.visits) ∧
      (∃ i, demo_children.get? i = some best ∧
        ∀ j, j < i → ∀ cj, demo_children.get? j = some cj → cj.visits < best.visits) ∧
      ∃ m, m ∈ get_valid_moves empty_board ∧
        make_move empty_board m Player.R = best.board ∧
        mcts_select_move empty_board Player.R demo_children (fun _ => 0) = m := by
  refine ⟨by decide, by simp [demo_children], ?_⟩
  apply (claim_C7_mcts_final_selection empty_board Player.R demo_children
    (fun _ => 0) (by decide) ?_).2 (by simp [demo_children])
  intro ch hch
  rcases List.mem_cons.mp hch with rfl | hch2
  · exact ⟨0, by decide, rfl⟩
  rcases List.mem_cons.mp hch2 with rfl | hch3
  · exact ⟨1, by decide, rfl⟩
  · cases hch3

end ConnectFour
